import Mathlib

/-
  Verification of the forward-reference index, percentage aggregator,
  hash functions and configuration checks of the similarity tester `sim`.

  The embedding is a shallow one: the token array is a total function
  `T : Nat → Nat` (tokens are the integers `Token2int` yields), texts are
  `(start, limit)` pairs of token positions, the forward-reference array
  and the `last_index` hash table are functions `Nat → Nat` updated
  pointwise, and machine integers are `Nat` with explicit `% 2 ^ w`
  where C unsigned overflow can occur.  Fallible code returns `Except`.
-/

namespace Sim

/-- Pointwise update of a `Nat`-indexed array modelled as a function. -/
def upd (f : Nat → Nat) (i v : Nat) : Nat → Nat :=
  fun x => if x = i then v else f x

/-- `N_SAMPLES` from hash.c: the number of token samples a hash uses. -/
def nSamples : Nat := 24

/-- `sample_pos[n]` as computed by `init_hash_table` in hash.c:
the straight-line approximation
`(2*n*(Min_Run_Size-1) + (N_SAMPLES-1)) / (2*(N_SAMPLES-1))`. -/
def samplePos (mrs n : Nat) : Nat :=
  (2 * n * (mrs - 1) + (nSamples - 1)) / (2 * (nSamples - 1))

/-- The `sample_pos` array filled by the `for (n = 0; n < N_SAMPLES; n++)`
loop of `init_hash_table`. -/
def samplePosList (mrs : Nat) : List Nat :=
  (List.range nSamples).map (samplePos mrs)

/-- One iteration of the `hash1` loop in hash.c on a `uint32_t` state:
left shift, conditional clearing of the top bit (circular shift over the
31 low bits), then XOR with the sampled token. `HASH_W = 32`. -/
def h1round (h tok : Nat) : Nat :=
  let hs := (h <<< 1) % 2 ^ 32
  let hc := if hs.testBit 31 then hs ^^^ (2 ^ 31 + 1) else hs
  hc ^^^ (tok % 2 ^ 32)

/-- `hash1(&Token_Array[p])` from hash.c: fold of `h1round` over the
`N_SAMPLES` sampled tokens of the window starting at `p`. -/
def hash1 (T : Nat → Nat) (mrs p : Nat) : Nat :=
  (List.range nSamples).foldl (fun h n => h1round h (T (p + samplePos mrs n))) 0

/-- The hash-table index `hash1(&Token_Array[p]) % last_index_table_size`
used by `make_forward_references_hash1`. -/
def bucket (T : Nat → Nat) (mrs M p : Nat) : Nat :=
  hash1 T mrs p % M

/-- Modelled from the spec: `vlong_uint` (declared in any_int.h, which is
not part of the sources at hand) is the wide unsigned integer used by
`hash2`; per §4.3 it is "a wide integer W (typically 64 bits)".  We take
`VLONG_W = 64`. -/
def vlongW : Nat := 64

/-- `hash2(&Token_Array[p])` from hash.c: XOR of five sampled tokens of
the window at `p` shifted to five staggered positions of a `vlong_uint`.
The five sample indices are `0`, `N_SAMPLES-1`, `(N_SAMPLES-1)/2`,
`(N_SAMPLES-1)*1/4` and `(N_SAMPLES-1)*3/4`. -/
def hash2 (T : Nat → Nat) (mrs p : Nat) : Nat :=
  let ex := fun k => T (p + samplePos mrs k) % 2 ^ vlongW
  ((ex 0 <<< 0) % 2 ^ vlongW) ^^^
  ((ex (nSamples - 1) <<< (vlongW * 1 / 5)) % 2 ^ vlongW) ^^^
  ((ex ((nSamples - 1) / 2) <<< (vlongW * 2 / 5)) % 2 ^ vlongW) ^^^
  ((ex ((nSamples - 1) * 1 / 4) <<< (vlongW * 3 / 5)) % 2 ^ vlongW) ^^^
  ((ex ((nSamples - 1) * 3 / 4) <<< (vlongW * 4 / 5)) % 2 ^ vlongW)

/-- The positions `j` the sweep-1 loop of `make_forward_references_hash1`
visits inside one text: `for (j = tx_start; j + Min_Run_Size - 1 < tx_limit; j++)`. -/
def textPositions (mrs : Nat) (t : Nat × Nat) : List Nat :=
  List.range' t.1 (t.2 + 1 - mrs - t.1)

/-- The positions visited by the outer `for (n = 0; n < Number_of_Texts; n++)`
loop, text after text. -/
def allPositions (mrs : Nat) : List (Nat × Nat) → List Nat
  | [] => []
  | t :: ts => textPositions mrs t ++ allPositions mrs ts

/-- The positions actually inserted into the hash table: those visited
positions at which `May_Be_Start_Of_Run(Token_Array[j])` holds. -/
def eligList (T : Nat → Nat) (mayStart : Nat → Bool) (mrs : Nat)
    (texts : List (Nat × Nat)) : List Nat :=
  (allPositions mrs texts).filter (fun j => mayStart (T j))

/-- State of sweep 1: the forward-reference array being built and the
`last_index` hash table. -/
structure H1State where
  fr : Nat → Nat
  li : Nat → Nat

/-- The body of the sweep-1 loop once `May_Be_Start_Of_Run` has passed:
`h = hash1(...) % last_index_table_size; if (last_index[h])
forward_reference[last_index[h]] = j; last_index[h] = j;`. -/
def insStep (T : Nat → Nat) (mrs M : Nat) (s : H1State) (j : Nat) : H1State :=
  let h := bucket T mrs M j
  { fr := if s.li h ≠ 0 then upd s.fr (s.li h) j else s.fr
    li := upd s.li h j }

/-- The full body of the sweep-1 loop, including the
`May_Be_Start_Of_Run` guard. -/
def h1step (T : Nat → Nat) (mayStart : Nat → Bool) (mrs M : Nat)
    (s : H1State) (j : Nat) : H1State :=
  if mayStart (T j) then insStep T mrs M s j else s

/-- `make_forward_references_hash1` from hash.c: the array starts out
zeroed by `Calloc`, then every text's eligible positions are threaded
through the `last_index` buckets. -/
def sweep1 (T : Nat → Nat) (mayStart : Nat → Bool) (mrs M : Nat)
    (texts : List (Nat × Nat)) : H1State :=
  texts.foldl (fun s t => (textPositions mrs t).foldl (h1step T mayStart mrs M) s)
    ⟨fun _ => 0, fun _ => 0⟩

/-- The forward-reference array after sweep 1. -/
def fr1 (T : Nat → Nat) (mayStart : Nat → Bool) (mrs M : Nat)
    (texts : List (Nat × Nat)) : Nat → Nat :=
  (sweep1 T mayStart mrs M texts).fr

/-- The inner `while ((j = forward_reference[j]) && hash2(&Token_Array[j]) != h2)`
loop of `clean_forward_references_hash2`, with explicit fuel; it is called
with the already-dereferenced first candidate `j = forward_reference[i]`. -/
def chase (fr : Nat → Nat) (h2fn : Nat → Nat) (htarget : Nat) :
    Nat → Nat → Nat
  | 0, j => j
  | fuel + 1, j =>
    if j = 0 then 0
    else if h2fn j = htarget then j
    else chase fr h2fn htarget fuel (fr j)

/-- `clean_forward_references_hash2` from hash.c: for every
`i` with `i + Min_Run_Size < Token_Array_Length()`, in increasing order,
short-circuit `forward_reference[i]` to the first chain member whose
`hash2` agrees with `hash2(&Token_Array[i])`, or to zero. -/
def sweep2 (T : Nat → Nat) (mrs N : Nat) (fr0 : Nat → Nat) : Nat → Nat :=
  (List.range (N - mrs)).foldl
    (fun fr i => upd fr i (chase fr (hash2 T mrs) (hash2 T mrs i) N (fr i))) fr0

/-- `Make_Forward_References` from hash.c: `Calloc` zero-fill, sweep 1,
then sweep 2. -/
def forwardRef (T : Nat → Nat) (mayStart : Nat → Bool) (mrs M : Nat)
    (texts : List (Nat × Nat)) (N : Nat) : Nat → Nat :=
  sweep2 T mrs N (fr1 T mayStart mrs M texts)

/-- The chain `p, fr[p], fr[fr[p]], ...` up to the first 0, with fuel;
the list holds the successors of `p`, not `p` itself. -/
def chain (fr : Nat → Nat) : Nat → Nat → List Nat
  | 0, _ => []
  | fuel + 1, p => if fr p = 0 then [] else fr p :: chain fr fuel (fr p)

/-- `Forward_Reference(i)` from hash.c: fatal for `i == 0` and for
`i >= n_forward_references`, otherwise the array entry.  `fatal` from
error.c prints and exits, modelled as `Except.error`. -/
def Forward_Reference (T : Nat → Nat) (mayStart : Nat → Bool) (mrs M : Nat)
    (texts : List (Nat × Nat)) (N : Nat) (i : Nat) : Except String Nat :=
  if i = 0 ∨ N ≤ i then Except.error "internal error, bad forward reference"
  else Except.ok (forwardRef T mayStart mrs M texts N i)

/-- Well-formedness of the text registry, as the spec's data model and the
source comments state it: texts are laid down left to right without
overlapping (`limit ≤` next `start`), positions start at 1
(`j = txt->tx_start; /* >= 1 */`), every limit is within the token array,
and `Min_Run_Size` is positive. -/
abbrev WFtexts (mrs : Nat) (texts : List (Nat × Nat)) (N : Nat) : Prop :=
  List.Pairwise (fun a b => a.2 ≤ b.1) texts ∧
  (∀ t ∈ texts, 1 ≤ t.1 ∧ t.2 ≤ N) ∧
  1 ≤ mrs

/-- A position is eligible when `May_Be_Start_Of_Run` holds for its token
and its `Min_Run_Size`-token window fits inside its own text. -/
def eligible (T : Nat → Nat) (mayStart : Nat → Bool) (mrs : Nat)
    (texts : List (Nat × Nat)) (j : Nat) : Prop :=
  mayStart (T j) = true ∧ ∃ t ∈ texts, t.1 ≤ j ∧ j + mrs - 1 < t.2

/-- Window `q` hash-matches window `p` under both the primary hash
reduced modulo the table size and the secondary hash. -/
def hashMatchB (T : Nat → Nat) (mrs M p q : Nat) : Bool :=
  (bucket T mrs M q == bucket T mrs M p) && (hash2 T mrs q == hash2 T mrs p)

/-- Semantic contents of the `last_index` table after the positions in `E`
have been inserted: each bucket holds the last (= largest) inserted
position hashing to it, or 0. -/
def InvLi (T : Nat → Nat) (mrs M : Nat) (E : List Nat) (li : Nat → Nat) : Prop :=
  ∀ h, (li h = 0 ∧ ∀ j ∈ E, bucket T mrs M j ≠ h) ∨
    (li h ∈ E ∧ bucket T mrs M (li h) = h ∧
      ∀ j ∈ E, bucket T mrs M j = h → j ≤ li h)

/-- Semantic contents of the forward-reference array after the positions
in `E` have been inserted: `fr q` is the least position of `E` after `q`
in `q`'s bucket, or 0. -/
def InvFr (T : Nat → Nat) (mrs M : Nat) (E : List Nat) (fr : Nat → Nat) : Prop :=
  (∀ q, q ∉ E → fr q = 0) ∧
  ∀ q ∈ E,
    (fr q = 0 ∧ ∀ j ∈ E, q < j → bucket T mrs M j ≠ bucket T mrs M q) ∨
    (fr q ∈ E ∧ q < fr q ∧ bucket T mrs M (fr q) = bucket T mrs M q ∧
      ∀ j ∈ E, q < j → bucket T mrs M j = bucket T mrs M q → fr q ≤ j)

/-- `struct text` of text.h as the percentage aggregator uses it: the
file name (modelled as a numeric identifier standing for the
`tx_fname` pointer) and the token range `[tx_start, tx_limit)`. -/
structure TextR where
  fname : Nat
  start : Nat
  limit : Nat
  deriving DecidableEq

/-- `struct chunk` of runs.h, restricted to the one field
(`ch_text`) the percentage aggregator reads. -/
structure ChunkR where
  text : TextR
  deriving DecidableEq

/-- `struct run` of runs.h, restricted to the fields the percentage
aggregator reads: the two chunks and `rn_size`. -/
structure RunR where
  chunk0 : ChunkR
  chunk1 : ChunkR
  size : Nat

/-- `struct match` of percentages.c; the `ma_next` pointer is modelled
by the position in a `List MatchR`. -/
structure MatchR where
  fname0 : Nat
  fname1 : Nat
  size : Nat
  size0 : Nat
  deriving DecidableEq

/-- `do_add_to_precentages` from percentages.c (the source spells it
so): walk the match list; on the first record for the ordered file pair
accumulate `ma_size += size`; if there is none, append a fresh record
with `ma_size0 = tx_limit - tx_start` of the first file. -/
def do_add_to_precentages (ch0 ch1 : ChunkR) (size : Nat) :
    List MatchR → List MatchR
  | [] => [⟨ch0.text.fname, ch1.text.fname, size,
      ch0.text.limit - ch0.text.start⟩]
  | m :: ms =>
    if m.fname0 = ch0.text.fname ∧ m.fname1 = ch1.text.fname then
      { m with size := m.size + size } :: ms
    else m :: do_add_to_precentages ch0 ch1 size ms

/-- `add_to_percentages` from percentages.c: runs within a single text
are ignored; otherwise both directed records are updated. -/
def add_to_percentages (r : RunR) (l : List MatchR) : List MatchR :=
  if r.chunk0.text = r.chunk1.text then l
  else do_add_to_precentages r.chunk1 r.chunk0 r.size
    (do_add_to_precentages r.chunk0 r.chunk1 r.size l)

/-- Comparison definition following the spec's words (§4.6): the effect
of one addition on the records of one ordered file pair: bump the first
record's `shared_tokens` by `size`, or create the record with its
`size_a` fixed at creation time. -/
def bumpFirst (f0 f1 size size0 : Nat) : List MatchR → List MatchR
  | [] => [⟨f0, f1, size, size0⟩]
  | m :: ms => { m with size := m.size + size } :: ms

/-- The sublist of records of the ordered file pair `(f0, f1)`. -/
def pairRecords (f0 f1 : Nat) (l : List MatchR) : List MatchR :=
  l.filter (fun m => m.fname0 == f0 && m.fname1 == f1)

/-- The atoi-parsed value options of the driver (`main` in sim.c): the
`-r`, `-w` and `-t` arguments when given.  C's `atoi` of a string that
is not a number yields 0, so every supplied option is some integer. -/
structure ValueOptions where
  minRun : Option Int
  pageWidth : Option Int
  threshold : Option Int

/-- The "Treat the value options" block of `main` in sim.c, in source
order.  `fatal` (error.c) prints to stderr and calls `exit(1)` before
any file is read, any index is built or any comparison is made; it is
modelled as `Except.error`.  On success the resulting
`(Min_Run_Size, Page_Width, Threshold_Percentage)` values are returned
and the program goes on to the real work.  Modelled from the spec: the
defaults `DEFAULT_MIN_RUN_SIZE = 24` (spec §4.2) and a positive default
page width come from settings.par, which is not among the sources at
hand; `Threshold_Percentage` defaults to 1 in sim.c itself. -/
def treatValueOptions (o : ValueOptions) : Except String (Int × Int × Int) :=
  let mrs : Int := match o.minRun with | some v => v | none => 24
  if o.minRun.isSome ∧ mrs = 0 then
    Except.error "bad or zero run size; form is: -r N"
  else
    let pw : Int := match o.pageWidth with | some v => v | none => 80
    if o.pageWidth.isSome ∧ pw ≤ 0 then
      Except.error "bad or zero page width"
    else
      let th : Int := match o.threshold with | some v => v | none => 1
      if o.threshold.isSome ∧ (th > 100 ∨ th ≤ 0) then
        Except.error "threshold must be between 1 and 100"
      else Except.ok (mrs, pw, th)

/-- Concrete token array for the worked instance: every token is 4. -/
def tokA : Nat → Nat := fun _ => 4

/-- Concrete `May_Be_Start_Of_Run` for the worked instance: always true. -/
def msA : Nat → Bool := fun _ => true

/-- Concrete text registry for the worked instance: two abutting texts
holding positions 1..2 and 3..4 of a token array of length 5. -/
def textsA : List (Nat × Nat) := [(1, 3), (3, 5)]

/-- A concrete run between two distinct texts, for the percentage
aggregator instance. -/
def runB : RunR := ⟨⟨⟨1, 0, 10⟩⟩, ⟨⟨2, 10, 16⟩⟩, 5⟩

theorem upd_same (f : Nat → Nat) (i v : Nat) : upd f i v i = v := by
  simp [upd]

theorem upd_other (f : Nat → Nat) (i v x : Nat) (h : x ≠ i) : upd f i v x = f x := by
  simp [upd, h]

theorem mem_textPositions (mrs : Nat) (t : Nat × Nat) (j : Nat) (hm : 1 ≤ mrs) :
    j ∈ textPositions mrs t ↔ t.1 ≤ j ∧ j + mrs - 1 < t.2 := by
  simp only [textPositions, List.mem_range'_1]
  omega

theorem mem_allPositions (mrs : Nat) (texts : List (Nat × Nat)) (j : Nat) (hm : 1 ≤ mrs) :
    j ∈ allPositions mrs texts ↔ ∃ t ∈ texts, t.1 ≤ j ∧ j + mrs - 1 < t.2 := by
  induction texts with
  | nil => simp [allPositions]
  | cons t ts ih =>
    simp only [allPositions, List.mem_append, ih, mem_textPositions mrs t j hm,
      List.mem_cons]
    constructor
    · rintro (h | ⟨u, hu, h⟩)
      · exact ⟨t, Or.inl rfl, h⟩
      · exact ⟨u, Or.inr hu, h⟩
    · rintro ⟨u, hu | hu, h⟩
      · exact Or.inl (hu ▸ h)
      · exact Or.inr ⟨u, hu, h⟩

theorem mem_eligList (T : Nat → Nat) (mayStart : Nat → Bool) (mrs : Nat)
    (texts : List (Nat × Nat)) (j : Nat) (hm : 1 ≤ mrs) :
    j ∈ eligList T mayStart mrs texts ↔
      mayStart (T j) = true ∧ ∃ t ∈ texts, t.1 ≤ j ∧ j + mrs - 1 < t.2 := by
  simp only [eligList, List.mem_filter, mem_allPositions mrs texts j hm]
  tauto

theorem allPositions_sorted (mrs : Nat) (texts : List (Nat × Nat)) (N : Nat)
    (hWF : WFtexts mrs texts N) :
    List.Pairwise (fun a b => a < b) (allPositions mrs texts) := by
  obtain ⟨hord, hbounds, hm⟩ := hWF
  induction texts with
  | nil => exact List.Pairwise.nil
  | cons t ts ih =>
    simp only [allPositions]
    rw [List.pairwise_append]
    refine ⟨?_, ?_, ?_⟩
    · exact List.pairwise_lt_range' _ _
    · exact ih hord.of_cons (fun u hu => hbounds u (List.mem_cons_of_mem t hu))
    · intro a ha b hb
      rw [mem_textPositions mrs t a hm] at ha
      rw [mem_allPositions mrs ts b hm] at hb
      obtain ⟨u, hu, hub, _⟩ := hb
      have htu : t.2 ≤ u.1 := (List.pairwise_cons.mp hord).1 u hu
      omega

theorem eligList_sorted (T : Nat → Nat) (mayStart : Nat → Bool) (mrs : Nat)
    (texts : List (Nat × Nat)) (N : Nat) (hWF : WFtexts mrs texts N) :
    List.Pairwise (fun a b => a < b) (eligList T mayStart mrs texts) :=
  List.Pairwise.sublist (List.filter_sublist _) (allPositions_sorted mrs texts N hWF)

theorem eligList_ge_one (T : Nat → Nat) (mayStart : Nat → Bool) (mrs : Nat)
    (texts : List (Nat × Nat)) (N : Nat) (hWF : WFtexts mrs texts N) :
    ∀ j ∈ eligList T mayStart mrs texts, 1 ≤ j := by
  intro j hj
  rw [mem_eligList T mayStart mrs texts j hWF.2.2] at hj
  obtain ⟨_, t, ht, h1, _⟩ := hj
  exact le_trans (hWF.2.1 t ht).1 h1

theorem eligList_window (T : Nat → Nat) (mayStart : Nat → Bool) (mrs : Nat)
    (texts : List (Nat × Nat)) (N : Nat) (hWF : WFtexts mrs texts N) :
    ∀ j ∈ eligList T mayStart mrs texts, j + mrs ≤ N := by
  intro j hj
  rw [mem_eligList T mayStart mrs texts j hWF.2.2] at hj
  obtain ⟨_, t, ht, _, h2⟩ := hj
  have := (hWF.2.1 t ht).2
  have := hWF.2.2
  omega

theorem sweep1_eq_foldl (T : Nat → Nat) (mayStart : Nat → Bool) (mrs M : Nat)
    (texts : List (Nat × Nat)) :
    sweep1 T mayStart mrs M texts =
      (allPositions mrs texts).foldl (h1step T mayStart mrs M) ⟨fun _ => 0, fun _ => 0⟩ := by
  show List.foldl _ _ texts = _
  generalize (⟨fun _ => 0, fun _ => 0⟩ : H1State) = s
  induction texts generalizing s with
  | nil => rfl
  | cons t ts ih => simp only [allPositions, List.foldl_cons, List.foldl_append, ih]

theorem foldl_h1step_filter (T : Nat → Nat) (mayStart : Nat → Bool) (mrs M : Nat) :
    ∀ (l : List Nat) (s : H1State),
      l.foldl (h1step T mayStart mrs M) s =
        (l.filter (fun j => mayStart (T j))).foldl (insStep T mrs M) s := by
  intro l
  induction l with
  | nil => intro s; rfl
  | cons j tl ih =>
    intro s
    by_cases hj : mayStart (T j)
    · simp only [List.foldl_cons, List.filter_cons, hj, if_true, h1step, ih]
    · simp only [List.foldl_cons, List.filter_cons, hj, h1step, if_false, ih,
        Bool.false_eq_true]

theorem sweep1_eq_insFold (T : Nat → Nat) (mayStart : Nat → Bool) (mrs M : Nat)
    (texts : List (Nat × Nat)) :
    sweep1 T mayStart mrs M texts =
      (eligList T mayStart mrs texts).foldl (insStep T mrs M) ⟨fun _ => 0, fun _ => 0⟩ := by
  rw [sweep1_eq_foldl, foldl_h1step_filter]
  rfl

theorem insStep_li (T : Nat → Nat) (mrs M : Nat) (s : H1State) (x : Nat) :
    (insStep T mrs M s x).li = upd s.li (bucket T mrs M x) x := rfl

theorem insStep_fr (T : Nat → Nat) (mrs M : Nat) (s : H1State) (x : Nat) :
    (insStep T mrs M s x).fr =
      if s.li (bucket T mrs M x) ≠ 0 then upd s.fr (s.li (bucket T mrs M x)) x
      else s.fr := rfl

theorem inv_step (T : Nat → Nat) (mrs M : Nat) (E : List Nat) (s : H1State) (x : Nat)
    (hE1 : ∀ j ∈ E, 1 ≤ j) (hEx : ∀ j ∈ E, j < x)
    (hLi : InvLi T mrs M E s.li) (hFr : InvFr T mrs M E s.fr) :
    InvLi T mrs M (E ++ [x]) (insStep T mrs M s x).li ∧
      InvFr T mrs M (E ++ [x]) (insStep T mrs M s x).fr := by
  have hxE : x ∉ E := fun h => absurd (hEx x h) (lt_irrefl x)
  constructor
  · -- the table invariant
    intro h
    by_cases hh : h = bucket T mrs M x
    · right
      subst hh
      rw [insStep_li, upd_same]
      refine ⟨List.mem_append_right E (List.mem_singleton_self x), rfl, ?_⟩
      intro j hj _
      rcases List.mem_append.mp hj with hj | hj
      · exact le_of_lt (hEx j hj)
      · rw [List.mem_singleton.mp hj]
    · rw [insStep_li, upd_other _ _ _ _ (fun hc => hh hc)]
      rcases hLi h with ⟨hz, hnone⟩ | ⟨hmem, hbk, hmax⟩
      · left
        refine ⟨hz, ?_⟩
        intro j hj
        rcases List.mem_append.mp hj with hj | hj
        · exact hnone j hj
        · rw [List.mem_singleton.mp hj]; exact fun hc => hh hc.symm
      · right
        refine ⟨List.mem_append_left _ hmem, hbk, ?_⟩
        intro j hj hbj
        rcases List.mem_append.mp hj with hj | hj
        · exact hmax j hj hbj
        · exact absurd (List.mem_singleton.mp hj ▸ hbj) (fun hc => hh hc.symm)
  · -- the forward-reference invariant
    by_cases hli : s.li (bucket T mrs M x) = 0
    · -- empty bucket: no forward reference is written
      have hfr' : (insStep T mrs M s x).fr = s.fr := by
        simp [insStep, hli]
      rw [hfr']
      have hnone : ∀ j ∈ E, bucket T mrs M j ≠ bucket T mrs M x := by
        rcases hLi (bucket T mrs M x) with ⟨_, hn⟩ | ⟨hmem, _, _⟩
        · exact hn
        · exact absurd hli (Nat.one_le_iff_ne_zero.mp (hE1 _ hmem))
      constructor
      · intro q hq
        exact hFr.1 q (fun hc => hq (List.mem_append_left _ hc))
      · intro q hq
        rcases List.mem_append.mp hq with hq | hq
        · rcases hFr.2 q hq with ⟨hz, hno⟩ | ⟨hmem, hlt, hbk, hmin⟩
          · left
            refine ⟨hz, ?_⟩
            intro j hj hqj
            rcases List.mem_append.mp hj with hj | hj
            · exact hno j hj hqj
            · rw [List.mem_singleton.mp hj]
              intro hc
              exact hnone q hq (by rw [← hc])
          · right
            refine ⟨List.mem_append_left _ hmem, hlt, hbk, ?_⟩
            intro j hj hqj hbj
            rcases List.mem_append.mp hj with hj | hj
            · exact hmin j hj hqj hbj
            · rw [List.mem_singleton.mp hj] at hbj
              exact absurd hbj.symm (hnone q hq)
        · rw [List.mem_singleton.mp hq]
          left
          refine ⟨hFr.1 x hxE, ?_⟩
          intro j hj hxj
          rcases List.mem_append.mp hj with hj | hj
          · exact absurd hxj (not_lt_of_ge (le_of_lt (hEx j hj)))
          · rw [List.mem_singleton.mp hj] at hxj
            exact absurd hxj (lt_irrefl x)
    · -- occupied bucket: the last occupant is linked to x
      rcases hLi (bucket T mrs M x) with ⟨hz, _⟩ | ⟨hmem, hbk, hmax⟩
      · exact absurd hz hli
      set p := s.li (bucket T mrs M x) with hp
      have hfr' : (insStep T mrs M s x).fr = upd s.fr p x := by
        simp [insStep, hli]
      rw [hfr']
      constructor
      · intro q hq
        have hqp : q ≠ p := fun hc => hq (List.mem_append_left _ (hc ▸ hmem))
        rw [upd_other _ _ _ _ hqp]
        exact hFr.1 q (fun hc => hq (List.mem_append_left _ hc))
      · intro q hq
        rcases List.mem_append.mp hq with hq | hq
        · by_cases hqp : q = p
          · -- q is the bucket's last occupant: it now points at x
            subst hqp
            rw [upd_same]
            right
            refine ⟨List.mem_append_right _ (List.mem_singleton_self x),
              hEx p hq, hbk.symm, ?_⟩
            intro j hj hqj hbj
            rcases List.mem_append.mp hj with hj | hj
            · exact absurd hqj (not_lt_of_ge (hmax j hj (hbj.trans hbk)))
            · rw [List.mem_singleton.mp hj]
          · rw [upd_other _ _ _ _ hqp]
            rcases hFr.2 q hq with ⟨hz2, hno⟩ | ⟨hmem2, hlt2, hbk2, hmin2⟩
            · left
              refine ⟨hz2, ?_⟩
              intro j hj hqj
              rcases List.mem_append.mp hj with hj | hj
              · exact hno j hj hqj
              · rw [List.mem_singleton.mp hj]
                intro hc
                -- q would be an earlier member of x's bucket, below its
                -- last occupant p, contradicting that q has no successor
                have hqbk : bucket T mrs M q = bucket T mrs M x := hc.symm
                have hqle : q ≤ p := hmax q hq hqbk
                have hqltp : q < p := lt_of_le_of_ne hqle hqp
                exact hno p hmem hqltp (hbk.trans hqbk.symm)
            · right
              refine ⟨List.mem_append_left _ hmem2, hlt2, hbk2, ?_⟩
              intro j hj hqj hbj
              rcases List.mem_append.mp hj with hj | hj
              · exact hmin2 j hj hqj hbj
              · rw [List.mem_singleton.mp hj]
                exact le_of_lt (hEx _ hmem2)
        · rw [List.mem_singleton.mp hq]
          have hxp : x ≠ p := fun hc => absurd (hEx p hmem) (hc ▸ lt_irrefl x)
          rw [upd_other _ _ _ _ hxp]
          left
          refine ⟨hFr.1 x hxE, ?_⟩
          intro j hj hxj
          rcases List.mem_append.mp hj with hj | hj
          · exact absurd hxj (not_lt_of_ge (le_of_lt (hEx j hj)))
          · rw [List.mem_singleton.mp hj] at hxj
            exact absurd hxj (lt_irrefl x)

theorem inv_foldl (T : Nat → Nat) (mrs M : Nat) :
    ∀ (fut E : List Nat) (s : H1State),
      List.Pairwise (fun a b => a < b) (E ++ fut) →
      (∀ j ∈ E ++ fut, 1 ≤ j) →
      InvLi T mrs M E s.li → InvFr T mrs M E s.fr →
      InvLi T mrs M (E ++ fut) (fut.foldl (insStep T mrs M) s).li ∧
        InvFr T mrs M (E ++ fut) (fut.foldl (insStep T mrs M) s).fr := by
  intro fut
  induction fut with
  | nil =>
    intro E s _ _ hLi hFr
    simpa using ⟨hLi, hFr⟩
  | cons x tl ih =>
    intro E s hpw h1 hLi hFr
    have hEx : ∀ j ∈ E, j < x := by
      intro j hj
      exact (List.pairwise_append.mp hpw).2.2 j hj x (List.mem_cons_self x tl)
    have hstep := inv_step T mrs M E s x
      (fun j hj => h1 j (List.mem_append_left _ hj)) hEx hLi hFr
    have hassoc : E ++ x :: tl = (E ++ [x]) ++ tl := by simp
    rw [hassoc] at hpw h1 ⊢
    exact ih (E ++ [x]) (insStep T mrs M s x) hpw h1 hstep.1 hstep.2

theorem fr1_invFr (T : Nat → Nat) (mayStart : Nat → Bool) (mrs M : Nat)
    (texts : List (Nat × Nat)) (N : Nat) (hWF : WFtexts mrs texts N) :
    InvFr T mrs M (eligList T mayStart mrs texts) (fr1 T mayStart mrs M texts) := by
  have hinit1 : InvLi T mrs M [] (fun _ => 0) := by
    intro h; left; exact ⟨rfl, by simp⟩
  have hinit2 : InvFr T mrs M [] (fun _ => 0) := by
    exact ⟨fun _ _ => rfl, by simp⟩
  have := inv_foldl T mrs M (eligList T mayStart mrs texts) [] ⟨fun _ => 0, fun _ => 0⟩
    (by simpa using eligList_sorted T mayStart mrs texts N hWF)
    (by simpa using eligList_ge_one T mayStart mrs texts N hWF)
    hinit1 hinit2
  rw [fr1, sweep1_eq_insFold]
  simpa using this.2

theorem chase_zero (fr h2fn : Nat → Nat) (ht : Nat) :
    ∀ fuel, chase fr h2fn ht fuel 0 = 0 := by
  intro fuel
  cases fuel with
  | zero => rfl
  | succ n => simp [chase]

theorem chase_agree (fr fr' h2fn : Nat → Nat) (ht k : Nat)
    (hag : ∀ q, k < q → fr q = fr' q) (hmono : ∀ q, fr' q = 0 ∨ q < fr' q) :
    ∀ fuel j, j = 0 ∨ k < j →
      chase fr h2fn ht fuel j = chase fr' h2fn ht fuel j := by
  intro fuel
  induction fuel with
  | zero => intro j _; rfl
  | succ n ih =>
    intro j hj
    rcases hj with hj | hj
    · subst hj; rfl
    · have hjz : j ≠ 0 := Nat.one_le_iff_ne_zero.mp (le_trans (Nat.succ_le_of_lt (Nat.zero_lt_of_lt hj)) (le_refl j))
      simp only [chase, hjz, if_false]
      by_cases hh : h2fn j = ht
      · simp [hh]
      · simp only [hh, if_false]
        rw [hag j hj]
        exact ih (fr' j) (by rcases hmono j with h | h; exact Or.inl h; exact Or.inr (lt_trans hj h))

/-- The secondary-hash filter: correctness of the inner chain walk.
Starting from `fr p` (the sweep-1 value), the walk returns the least
position of `E` after `p` that shares `p`'s primary bucket and whose
`hash2` equals the representative `ht`, or 0 when there is none. -/
theorem chase_correct (T : Nat → Nat) (mrs M N : Nat) (E : List Nat) (fr : Nat → Nat)
    (hFr : InvFr T mrs M E fr) (hE1 : ∀ j ∈ E, 1 ≤ j) (hEN : ∀ j ∈ E, j + mrs ≤ N)
    (hmrs : 1 ≤ mrs) (ht : Nat) :
    ∀ fuel p, p ∈ E → N - p ≤ fuel →
      (chase fr (hash2 T mrs) ht fuel (fr p) = 0 ∧
        ∀ q ∈ E, p < q → bucket T mrs M q = bucket T mrs M p →
          hash2 T mrs q ≠ ht) ∨
      (chase fr (hash2 T mrs) ht fuel (fr p) ∈ E ∧
        p < chase fr (hash2 T mrs) ht fuel (fr p) ∧
        bucket T mrs M (chase fr (hash2 T mrs) ht fuel (fr p)) = bucket T mrs M p ∧
        hash2 T mrs (chase fr (hash2 T mrs) ht fuel (fr p)) = ht ∧
        ∀ q ∈ E, p < q → bucket T mrs M q = bucket T mrs M p →
          hash2 T mrs q = ht →
          chase fr (hash2 T mrs) ht fuel (fr p) ≤ q) := by
  intro fuel
  induction fuel with
  | zero =>
    intro p hp hfuel
    have := hEN p hp
    omega
  | succ n ih =>
    intro p hp hfuel
    rcases hFr.2 p hp with ⟨hz, hno⟩ | ⟨hmem, hlt, hbk, hmin⟩
    · left
      rw [hz]
      refine ⟨chase_zero _ _ _ _, ?_⟩
      intro q hq hpq hbq
      exact absurd hbq (hno q hq hpq)
    · have hrz : fr p ≠ 0 := Nat.one_le_iff_ne_zero.mp (hE1 _ hmem)
      by_cases hh : hash2 T mrs (fr p) = ht
      · -- the first chain member already matches
        right
        have hc : chase fr (hash2 T mrs) ht (n + 1) (fr p) = fr p := by
          simp [chase, hrz, hh]
        rw [hc]
        refine ⟨hmem, hlt, hbk, hh, ?_⟩
        intro q hq hpq hbq _
        exact hmin q hq hpq hbq
      · -- skip it and continue down the chain
        have hc : chase fr (hash2 T mrs) ht (n + 1) (fr p) =
            chase fr (hash2 T mrs) ht n (fr (fr p)) := by
          simp [chase, hrz, hh]
        rw [hc]
        have hfuel' : N - fr p ≤ n := by
          have := hEN p hp
          omega
        rcases ih (fr p) hmem hfuel' with ⟨hz2, hno2⟩ | ⟨hm2, hl2, hb2, hh2, hmin2⟩
        · left
          refine ⟨hz2, ?_⟩
          intro q hq hpq hbq hhq
          have hrq : fr p ≤ q := hmin q hq hpq hbq
          have hrq' : fr p < q := lt_of_le_of_ne hrq (fun hc2 => hh (hc2 ▸ hhq))
          exact hno2 q hq hrq' (hbq.trans hbk.symm) hhq
        · right
          refine ⟨hm2, lt_trans hlt hl2, hb2.trans hbk, hh2, ?_⟩
          intro q hq hpq hbq hhq
          have hrq : fr p ≤ q := hmin q hq hpq hbq
          have hrq' : fr p < q := lt_of_le_of_ne hrq (fun hc2 => hh (hc2 ▸ hhq))
          exact hmin2 q hq hrq' (hbq.trans hbk.symm) hhq

theorem sweep2_foldl_char (T : Nat → Nat) (mrs N : Nat) (fr0 : Nat → Nat)
    (hmono : ∀ q, fr0 q = 0 ∨ q < fr0 q) :
    ∀ k q, ((List.range k).foldl
        (fun fr i => upd fr i (chase fr (hash2 T mrs) (hash2 T mrs i) N (fr i))) fr0) q =
      if q < k then chase fr0 (hash2 T mrs) (hash2 T mrs q) N (fr0 q) else fr0 q := by
  intro k
  induction k with
  | zero => intro q; simp
  | succ n ih =>
    intro q
    rw [List.range_succ, List.foldl_append]
    set Fn := (List.range n).foldl
      (fun fr i => upd fr i (chase fr (hash2 T mrs) (hash2 T mrs i) N (fr i))) fr0 with hFn
    have hag : ∀ r, n < r → Fn r = fr0 r := by
      intro r hr
      rw [ih r, if_neg (by omega)]
    simp only [List.foldl_cons, List.foldl_nil]
    by_cases hq : q = n
    · subst hq
      rw [upd_same, if_pos (Nat.lt_succ_self q)]
      have hFq : Fn q = fr0 q := by rw [ih q, if_neg (lt_irrefl q)]
      rw [hFq]
      exact chase_agree Fn fr0 (hash2 T mrs) (hash2 T mrs q) q hag hmono N (fr0 q)
        (by rcases hmono q with h | h; exact Or.inl h; exact Or.inr h)
    · rw [upd_other _ _ _ _ hq, ih q]
      by_cases hlt : q < n
      · rw [if_pos hlt, if_pos (by omega)]
      · rw [if_neg hlt, if_neg (by omega)]

/-- The forward-reference array after both sweeps, as a whole:
entries of ineligible positions are 0, and an eligible position's entry
is the least later eligible position agreeing with it under both the
primary bucket and `hash2`, or 0 when there is none. -/
theorem forwardRef_spec (T : Nat → Nat) (mayStart : Nat → Bool) (mrs M : Nat)
    (texts : List (Nat × Nat)) (N : Nat) (hWF : WFtexts mrs texts N) (p : Nat) :
    (p ∉ eligList T mayStart mrs texts →
      forwardRef T mayStart mrs M texts N p = 0) ∧
    (p ∈ eligList T mayStart mrs texts →
      (forwardRef T mayStart mrs M texts N p = 0 ∧
        ∀ q ∈ eligList T mayStart mrs texts, p < q →
          bucket T mrs M q = bucket T mrs M p → hash2 T mrs q ≠ hash2 T mrs p) ∨
      (forwardRef T mayStart mrs M texts N p ∈ eligList T mayStart mrs texts ∧
        p < forwardRef T mayStart mrs M texts N p ∧
        bucket T mrs M (forwardRef T mayStart mrs M texts N p) = bucket T mrs M p ∧
        hash2 T mrs (forwardRef T mayStart mrs M texts N p) = hash2 T mrs p ∧
        ∀ q ∈ eligList T mayStart mrs texts, p < q →
          bucket T mrs M q = bucket T mrs M p → hash2 T mrs q = hash2 T mrs p →
          forwardRef T mayStart mrs M texts N p ≤ q)) := by
  set E := eligList T mayStart mrs texts with hE
  have hFr : InvFr T mrs M E (fr1 T mayStart mrs M texts) :=
    fr1_invFr T mayStart mrs M texts N hWF
  have hE1 : ∀ j ∈ E, 1 ≤ j := eligList_ge_one T mayStart mrs texts N hWF
  have hEN : ∀ j ∈ E, j + mrs ≤ N := eligList_window T mayStart mrs texts N hWF
  have hmono : ∀ q, fr1 T mayStart mrs M texts q = 0 ∨ q < fr1 T mayStart mrs M texts q := by
    intro q
    by_cases hq : q ∈ E
    · rcases hFr.2 q hq with ⟨hz, _⟩ | ⟨_, hlt, _, _⟩
      · exact Or.inl hz
      · exact Or.inr hlt
    · exact Or.inl (hFr.1 q hq)
  have hval : forwardRef T mayStart mrs M texts N p =
      if p < N - mrs then
        chase (fr1 T mayStart mrs M texts) (hash2 T mrs) (hash2 T mrs p) N
          (fr1 T mayStart mrs M texts p)
      else fr1 T mayStart mrs M texts p :=
    sweep2_foldl_char T mrs N (fr1 T mayStart mrs M texts) hmono (N - mrs) p
  constructor
  · intro hp
    rw [hval, hFr.1 p hp]
    by_cases hlt : p < N - mrs
    · rw [if_pos hlt]; exact chase_zero _ _ _ _
    · rw [if_neg hlt]
  · intro hp
    by_cases hlt : p < N - mrs
    · rw [hval, if_pos hlt]
      exact chase_correct T mrs M N E (fr1 T mayStart mrs M texts) hFr hE1 hEN
        hWF.2.2 (hash2 T mrs p) N p hp (Nat.sub_le N p)
    · -- p is the very last eligible position: its sweep-1 entry is 0
      have hnolater : ∀ q ∈ E, p < q → False := by
        intro q hq hpq
        have h1 := hEN q hq
        have h2 := hEN p hp
        have h3 := hWF.2.2
        omega
      have hz : fr1 T mayStart mrs M texts p = 0 := by
        rcases hFr.2 p hp with ⟨hz, _⟩ | ⟨hm, hl, _, _⟩
        · exact hz
        · exact absurd hl (fun hc => hnolater _ hm hc)
      left
      rw [hval, if_neg hlt]
      exact ⟨hz, fun q hq hpq _ => absurd hpq (fun hc => hnolater q hq hc)⟩

theorem filter_sorted_first (P : Nat → Bool) :
    ∀ (l : List Nat), List.Pairwise (fun a b => a < b) l →
      ∀ r ∈ l, P r = true → (∀ q ∈ l, P q = true → r ≤ q) →
      l.filter P = r :: l.filter (fun q => decide (r < q) && P q) := by
  intro l
  induction l with
  | nil => intro _ r hr; exact absurd hr (List.not_mem_nil r)
  | cons a tl ih =>
    intro hpw r hr hPr hmin
    have hatl : ∀ b ∈ tl, a < b := (List.pairwise_cons.mp hpw).1
    rcases List.mem_cons.mp hr with hra | hrtl
    · subst hra
      rw [List.filter_cons, if_pos hPr, List.filter_cons,
        if_neg (by simp)]
      have : tl.filter P = tl.filter (fun q => decide (r < q) && P q) := by
        apply List.filter_congr
        intro q hq
        simp [hatl q hq]
      rw [this]
    · have hPa : P a = false := by
        rcases Bool.eq_false_or_eq_true (P a) with h | h
        · exact absurd (hmin a (List.mem_cons_self a tl) h)
            (not_le_of_lt (hatl r hrtl))
        · exact h
      rw [List.filter_cons, if_neg (by simp [hPa]), List.filter_cons,
        if_neg (by simp [hPa])]
      exact ih (List.pairwise_cons.mp hpw).2 r hrtl hPr
        (fun q hq hPq => hmin q (List.mem_cons_of_mem a hq) hPq)

/-- The chain from an eligible position `p` enumerates, in ascending
order, exactly the eligible positions after `p` that match `p` under
both hashes. -/
theorem chain_eq_filter (T : Nat → Nat) (mayStart : Nat → Bool) (mrs M : Nat)
    (texts : List (Nat × Nat)) (N : Nat) (hWF : WFtexts mrs texts N) :
    ∀ fuel p, p ∈ eligList T mayStart mrs texts → N - p ≤ fuel →
      chain (forwardRef T mayStart mrs M texts N) fuel p =
        (eligList T mayStart mrs texts).filter
          (fun q => decide (p < q) && hashMatchB T mrs M p q) := by
  intro fuel
  induction fuel with
  | zero =>
    intro p hp hfuel
    have := eligList_window T mayStart mrs texts N hWF p hp
    have := hWF.2.2
    omega
  | succ n ih =>
    intro p hp hfuel
    rcases (forwardRef_spec T mayStart mrs M texts N hWF p).2 hp with
      ⟨hz, hno⟩ | ⟨hmem, hlt, hbk, hh2, hmin⟩
    · rw [chain, if_pos hz]
      symm
      rw [List.filter_eq_nil_iff]
      intro q hq
      simp only [Bool.and_eq_true, decide_eq_true_eq, hashMatchB, beq_iff_eq]
      rintro ⟨hpq, hbq, hhq⟩
      exact hno q hq hpq hbq hhq
    · set r := forwardRef T mayStart mrs M texts N p with hr
      have hrz : r ≠ 0 := Nat.one_le_iff_ne_zero.mp
        (eligList_ge_one T mayStart mrs texts N hWF r hmem)
      rw [chain, if_neg hrz]
      have hfuel' : N - r ≤ n := by omega
      rw [ih r hmem hfuel']
      have hPr : (fun q => decide (p < q) && hashMatchB T mrs M p q) r = true := by
        simp [hashMatchB, hlt, hbk, hh2]
      have hfirst := filter_sorted_first
        (fun q => decide (p < q) && hashMatchB T mrs M p q)
        (eligList T mayStart mrs texts)
        (eligList_sorted T mayStart mrs texts N hWF) r hmem hPr
        (by
          intro q hq hPq
          simp only [Bool.and_eq_true, decide_eq_true_eq, hashMatchB, beq_iff_eq] at hPq
          exact hmin q hq hPq.1 hPq.2.1 hPq.2.2)
      rw [hfirst]
      congr 1
      apply List.filter_congr
      intro q hq
      by_cases hrq : r < q
      · have hpq : p < q := lt_trans hlt hrq
        simp only [hashMatchB, hbk, hh2, decide_eq_true hrq, decide_eq_true hpq,
          Bool.true_and]
      · simp [hrq]

theorem lt_two_pow_31_of_testBit (x : Nat) (hx : x < 2 ^ 32)
    (hb : x.testBit 31 = false) : x < 2 ^ 31 := by
  by_contra hge
  push_neg at hge
  have hd : x / 2 ^ 31 = 1 := by
    have h1 : x / 2 ^ 31 < 2 := by
      rw [Nat.div_lt_iff_lt_mul (by positivity)]
      omega
    have h2 : 1 ≤ x / 2 ^ 31 := by
      rw [Nat.le_div_iff_mul_le (by positivity)]
      omega
    omega
  rw [Nat.testBit_to_div_mod, hd] at hb
  simp at hb

/-- One round of `hash1` keeps the hash value below `2^(HASH_W-1)`:
the circular shift clears bit 31 and the XOR with a token that has its
top bit clear cannot set it again. -/
theorem h1round_lt (h tok : Nat) (_hh : h < 2 ^ 31) (htok : tok < 2 ^ 31) :
    h1round h tok < 2 ^ 31 := by
  have hs_lt : (h <<< 1) % 2 ^ 32 < 2 ^ 32 := Nat.mod_lt _ (by positivity)
  show (if ((h <<< 1) % 2 ^ 32).testBit 31
      then ((h <<< 1) % 2 ^ 32) ^^^ (2 ^ 31 + 1)
      else (h <<< 1) % 2 ^ 32) ^^^ (tok % 2 ^ 32) < 2 ^ 31
  have htok' : tok % 2 ^ 32 = tok := Nat.mod_eq_of_lt (by omega)
  rw [htok']
  refine Nat.xor_lt_two_pow ?_ htok
  by_cases hb : ((h <<< 1) % 2 ^ 32).testBit 31
  · rw [if_pos hb]
    apply lt_two_pow_31_of_testBit
    · exact Nat.xor_lt_two_pow hs_lt (by norm_num)
    · rw [Nat.testBit_xor, hb]
      have hc : Nat.testBit (2 ^ 31 + 1) 31 = true := by decide
      rw [hc]
      rfl
  · rw [if_neg hb]
    exact lt_two_pow_31_of_testBit _ hs_lt (by revert hb; cases ((h <<< 1) % 2 ^ 32).testBit 31 <;> simp)

/-- `hash1` always returns a value below `2^(HASH_W-1)` when all token
codes have their top bit clear. -/
theorem hash1_lt (T : Nat → Nat) (mrs : Nat) (hT : ∀ j, T j < 2 ^ 31) (p : Nat) :
    hash1 T mrs p < 2 ^ 31 := by
  rw [hash1]
  have hstep : ∀ (l : List Nat) (h : Nat), h < 2 ^ 31 →
      l.foldl (fun h n => h1round h (T (p + samplePos mrs n))) h < 2 ^ 31 := by
    intro l
    induction l with
    | nil => intro h hh; exact hh
    | cons a tl ih => intro h hh; exact ih _ (h1round_lt _ _ hh (hT _))
  exact hstep _ 0 (by norm_num)

theorem samplePos_lt (mrs n : Nat) (hm : 1 ≤ mrs) (hn : n < nSamples) :
    samplePos mrs n < mrs := by
  show (2 * n * (mrs - 1) + (nSamples - 1)) / (2 * (nSamples - 1)) < mrs
  rw [nSamples] at hn ⊢
  rw [Nat.div_lt_iff_lt_mul (by norm_num)]
  have h1 : 2 * n * (mrs - 1) ≤ 46 * (mrs - 1) :=
    Nat.mul_le_mul_right (mrs - 1) (by omega)
  generalize hA : 2 * n * (mrs - 1) = A at h1 ⊢
  omega

theorem do_add_pair (ch0 ch1 : ChunkR) (size : Nat) (l : List MatchR) :
    pairRecords ch0.text.fname ch1.text.fname
        (do_add_to_precentages ch0 ch1 size l) =
      bumpFirst ch0.text.fname ch1.text.fname size
        (ch0.text.limit - ch0.text.start)
        (pairRecords ch0.text.fname ch1.text.fname l) := by
  induction l with
  | nil =>
    simp [do_add_to_precentages, pairRecords, bumpFirst, List.filter]
  | cons m ms ih =>
    obtain ⟨a, b, c, d⟩ := m
    by_cases hm : a = ch0.text.fname ∧ b = ch1.text.fname
    · obtain ⟨ha, hb⟩ := hm
      subst ha
      subst hb
      simp [do_add_to_precentages, pairRecords, bumpFirst, List.filter_cons]
    · have hp : ((a == ch0.text.fname) && (b == ch1.text.fname)) = false := by
        rw [← Bool.not_eq_true]
        simp only [Bool.and_eq_true, beq_iff_eq]
        exact hm
      simp only [do_add_to_precentages, if_neg hm, pairRecords, List.filter_cons, hp,
        Bool.false_eq_true, if_false]
      simpa [pairRecords] using ih

theorem do_add_other (ch0 ch1 : ChunkR) (size g0 g1 : Nat)
    (hne : ¬(g0 = ch0.text.fname ∧ g1 = ch1.text.fname)) (l : List MatchR) :
    pairRecords g0 g1 (do_add_to_precentages ch0 ch1 size l) =
      pairRecords g0 g1 l := by
  induction l with
  | nil =>
    have hp : ((ch0.text.fname == g0) && (ch1.text.fname == g1)) = false := by
      rw [← Bool.not_eq_true]
      simp only [Bool.and_eq_true, beq_iff_eq]
      rintro ⟨h1, h2⟩
      exact hne ⟨h1.symm, h2.symm⟩
    simp [do_add_to_precentages, pairRecords, hp]
  | cons m ms ih =>
    obtain ⟨a, b, c, d⟩ := m
    by_cases hm : a = ch0.text.fname ∧ b = ch1.text.fname
    · -- the head record belongs to the updated pair, not the observed one
      have hp : ((a == g0) && (b == g1)) = false := by
        rw [← Bool.not_eq_true]
        simp only [Bool.and_eq_true, beq_iff_eq]
        rintro ⟨h1, h2⟩
        exact hne ⟨h1 ▸ hm.1, h2 ▸ hm.2⟩
      simp only [do_add_to_precentages, if_pos hm, pairRecords, List.filter_cons, hp,
        Bool.false_eq_true, if_false]
    · by_cases hp : ((a == g0) && (b == g1)) = true
      · simp only [do_add_to_precentages, if_neg hm, pairRecords, List.filter_cons, hp,
          if_true]
        exact congrArg _ (by simpa [pairRecords] using ih)
      · have hp' : ((a == g0) && (b == g1)) = false := by
          rw [← Bool.not_eq_true]
          exact hp
        simp only [do_add_to_precentages, if_neg hm, pairRecords, List.filter_cons, hp',
          Bool.false_eq_true, if_false]
        simpa [pairRecords] using ih

theorem mem_eligList_eligible (T : Nat → Nat) (mayStart : Nat → Bool) (mrs : Nat)
    (texts : List (Nat × Nat)) (j : Nat) (hm : 1 ≤ mrs) :
    j ∈ eligList T mayStart mrs texts ↔ eligible T mayStart mrs texts j :=
  mem_eligList T mayStart mrs texts j hm

/-- C1, amended.  After the two sweeps, for every position `p` at which a
run may start (`May_Be_Start_Of_Run` holds and the window fits inside
`p`'s text), the chain `p, fr[p], fr[fr[p]], ...` up to the first 0
consists exactly of the eligible positions `q > p` whose window
hash-matches `p`'s under both the primary hash modulo the table size and
the secondary hash, in ascending order; for every other position the
chain is empty.  (The claim as frozen omits the eligibility restriction
on `q`; see the counterexample.) -/
theorem claim_C1 (T : Nat → Nat) (mayStart : Nat → Bool) (mrs M : Nat)
    (texts : List (Nat × Nat)) (N : Nat) (hWF : WFtexts mrs texts N) (p : Nat) :
    (p ∈ eligList T mayStart mrs texts →
      chain (forwardRef T mayStart mrs M texts N) N p =
        (eligList T mayStart mrs texts).filter
          (fun q => decide (p < q) && hashMatchB T mrs M p q)) ∧
    (p ∉ eligList T mayStart mrs texts →
      chain (forwardRef T mayStart mrs M texts N) N p = []) := by
  constructor
  · intro hp
    exact chain_eq_filter T mayStart mrs M texts N hWF N p hp (Nat.sub_le N p)
  · intro hp
    have hz := (forwardRef_spec T mayStart mrs M texts N hWF p).1 hp
    cases N with
    | zero => rfl
    | succ n => rw [chain, if_pos hz]

set_option maxRecDepth 1000000 in
/-- C1, counterexample to the claim as frozen: all tokens are 4, so
every window of the two texts `[1,3)` and `[3,5)` hash-matches every
other under both hashes; position 2's window hash-matches position 1's
and `2 > 1`, yet the chain of 1 is `[3]` and does not contain 2, because
2's window straddles the text boundary and is never hashed. -/
theorem claim_C1_counterexample :
    hashMatchB tokA 2 14051 1 2 = true ∧ (1 : Nat) < 2 ∧
    chain (forwardRef tokA msA 2 14051 textsA 5) 5 1 = [3] ∧
    2 ∉ chain (forwardRef tokA msA 2 14051 textsA 5) 5 1 := by
  decide

set_option maxRecDepth 1000000 in
theorem claim_C1_witness :
    chain (forwardRef tokA msA 2 14051 textsA 5) 5 1 =
      (eligList tokA msA 2 textsA).filter
        (fun q => decide (1 < q) && hashMatchB tokA 2 14051 1 q) :=
  (claim_C1 tokA msA 2 14051 textsA 5 (by decide) 1).1 (by decide)

/-- C2.  After the secondary-hash filter sweep the chains are disjoint:
no two distinct positions `i1 < i2` have `fr[i1] = fr[i2] = q` with `q`
nonzero (equivalently, if the entries agree they are 0). -/
theorem claim_C2 (T : Nat → Nat) (mayStart : Nat → Bool) (mrs M : Nat)
    (texts : List (Nat × Nat)) (N : Nat) (hWF : WFtexts mrs texts N)
    (i1 i2 : Nat) (h12 : i1 < i2)
    (heq : forwardRef T mayStart mrs M texts N i1 =
      forwardRef T mayStart mrs M texts N i2) :
    forwardRef T mayStart mrs M texts N i1 = 0 := by
  by_contra hnz
  have hs1 := forwardRef_spec T mayStart mrs M texts N hWF i1
  have hs2 := forwardRef_spec T mayStart mrs M texts N hWF i2
  have hi1E : i1 ∈ eligList T mayStart mrs texts := by
    by_contra hE
    exact hnz (hs1.1 hE)
  have hi2E : i2 ∈ eligList T mayStart mrs texts := by
    by_contra hE
    exact hnz (heq ▸ hs2.1 hE)
  rcases hs1.2 hi1E with ⟨hz, _⟩ | ⟨_, _, hb1, hh1, hmin1⟩
  · exact hnz hz
  rcases hs2.2 hi2E with ⟨hz2, _⟩ | ⟨_, hl2, hb2, hh2, _⟩
  · exact hnz (heq ▸ hz2)
  have hbi2 : bucket T mrs M i2 = bucket T mrs M i1 := by
    rw [← hb2, ← heq, hb1]
  have hhi2 : hash2 T mrs i2 = hash2 T mrs i1 := by
    rw [← hh2, ← heq, hh1]
  have hle : forwardRef T mayStart mrs M texts N i1 ≤ i2 :=
    hmin1 i2 hi2E h12 hbi2 hhi2
  rw [← heq] at hl2
  omega

set_option maxRecDepth 1000000 in
theorem claim_C2_witness :
    (0 : Nat) < 2 ∧
    forwardRef tokA msA 2 14051 textsA 5 0 = forwardRef tokA msA 2 14051 textsA 5 2 ∧
    forwardRef tokA msA 2 14051 textsA 5 0 = 0 :=
  ⟨by decide, by decide,
    claim_C2 tokA msA 2 14051 textsA 5 (by decide) 0 2 (by decide) (by decide)⟩

/-- C3.  After `Make_Forward_References` completes, `fr[0] = 0` and for
every position `p` either `fr[p] = 0` or `fr[p] > p`: chains strictly
increase and terminate. -/
theorem claim_C3 (T : Nat → Nat) (mayStart : Nat → Bool) (mrs M : Nat)
    (texts : List (Nat × Nat)) (N : Nat) (hWF : WFtexts mrs texts N) (p : Nat) :
    forwardRef T mayStart mrs M texts N 0 = 0 ∧
    (forwardRef T mayStart mrs M texts N p = 0 ∨
      p < forwardRef T mayStart mrs M texts N p) := by
  constructor
  · have h0 : (0 : Nat) ∉ eligList T mayStart mrs texts := by
      intro h
      exact absurd (eligList_ge_one T mayStart mrs texts N hWF 0 h) (by omega)
    exact (forwardRef_spec T mayStart mrs M texts N hWF 0).1 h0
  · by_cases hp : p ∈ eligList T mayStart mrs texts
    · rcases (forwardRef_spec T mayStart mrs M texts N hWF p).2 hp with
        ⟨hz, _⟩ | ⟨_, hlt, _, _, _⟩
      · exact Or.inl hz
      · exact Or.inr hlt
    · exact Or.inl ((forwardRef_spec T mayStart mrs M texts N hWF p).1 hp)

set_option maxRecDepth 1000000 in
theorem claim_C3_witness :
    forwardRef tokA msA 2 14051 textsA 5 0 = 0 ∧
    (forwardRef tokA msA 2 14051 textsA 5 1 = 0 ∨
      1 < forwardRef tokA msA 2 14051 textsA 5 1) :=
  claim_C3 tokA msA 2 14051 textsA 5 (by decide) 1

/-- C5.  When the aggregator consumes a run: a run inside a single text
changes nothing; a run between texts with distinct names adds its size
to exactly the two directed records `(text_a, text_b)` and
`(text_b, text_a)` — the first existing record of each pair is bumped,
or a fresh record is created with `size_a` fixed to
`text.limit - text.start` at that first insertion — and the records of
every other ordered pair are untouched. -/
theorem claim_C5 (r : RunR) (l : List MatchR) (g0 g1 : Nat) :
    (r.chunk0.text = r.chunk1.text → add_to_percentages r l = l) ∧
    (r.chunk0.text.fname ≠ r.chunk1.text.fname →
      pairRecords r.chunk0.text.fname r.chunk1.text.fname (add_to_percentages r l) =
        bumpFirst r.chunk0.text.fname r.chunk1.text.fname r.size
          (r.chunk0.text.limit - r.chunk0.text.start)
          (pairRecords r.chunk0.text.fname r.chunk1.text.fname l) ∧
      pairRecords r.chunk1.text.fname r.chunk0.text.fname (add_to_percentages r l) =
        bumpFirst r.chunk1.text.fname r.chunk0.text.fname r.size
          (r.chunk1.text.limit - r.chunk1.text.start)
          (pairRecords r.chunk1.text.fname r.chunk0.text.fname l) ∧
      (¬(g0 = r.chunk0.text.fname ∧ g1 = r.chunk1.text.fname) →
        ¬(g0 = r.chunk1.text.fname ∧ g1 = r.chunk0.text.fname) →
        pairRecords g0 g1 (add_to_percentages r l) = pairRecords g0 g1 l)) := by
  constructor
  · intro hsame
    rw [add_to_percentages, if_pos hsame]
  · intro hfn
    have htx : r.chunk0.text ≠ r.chunk1.text := fun hc => hfn (by rw [hc])
    have hadd : add_to_percentages r l =
        do_add_to_precentages r.chunk1 r.chunk0 r.size
          (do_add_to_precentages r.chunk0 r.chunk1 r.size l) := by
      rw [add_to_percentages, if_neg htx]
    refine ⟨?_, ?_, ?_⟩
    · rw [hadd, do_add_other r.chunk1 r.chunk0 r.size _ _
        (fun hc => hfn hc.1), do_add_pair]
    · rw [hadd, do_add_pair, do_add_other r.chunk0 r.chunk1 r.size _ _
        (fun hc => hfn hc.2)]
    · intro hga hgb
      rw [hadd, do_add_other r.chunk1 r.chunk0 r.size _ _ hgb,
        do_add_other r.chunk0 r.chunk1 r.size _ _ hga]

theorem claim_C5_witness :
    pairRecords 1 2 (add_to_percentages runB []) =
      bumpFirst 1 2 5 10 (pairRecords 1 2 []) ∧
    pairRecords 2 1 (add_to_percentages runB []) =
      bumpFirst 2 1 5 6 (pairRecords 2 1 []) ∧
    pairRecords 7 8 (add_to_percentages runB []) = pairRecords 7 8 [] :=
  have h := (claim_C5 runB [] 7 8).2 (by decide)
  ⟨h.1, h.2.1, h.2.2 (by decide) (by decide)⟩

/-- C6.  The claim says any supplied `min_run_size ≤ 0` is rejected
before any work; the code (`main` in sim.c) only rejects a parsed value
of exactly 0: `if (Min_Run_Size == 0) fatal("bad or zero run size...")`,
so a negative value such as -5 passes the check and the program
proceeds to indexing. -/
theorem claim_C6 :
    treatValueOptions ⟨some (-5), none, none⟩ = Except.ok (-5, 80, 1) ∧
    treatValueOptions ⟨some 0, none, none⟩ =
      Except.error "bad or zero run size; form is: -r N" :=
  ⟨rfl, rfl⟩

/-- C7.  `hash1` always returns a value with bit `HASH_W - 1 = 31`
clear, so reducing it modulo the prime table size is unbiased.  The
token codes are assumed to have their own top bit clear — `Token` is an
opaque small integer per the spec's data model (token.h is not among
the sources at hand). -/
theorem claim_C7 (T : Nat → Nat) (mrs p : Nat) (hT : ∀ j, T j < 2 ^ 31) :
    Nat.testBit (hash1 T mrs p) 31 = false ∧ hash1 T mrs p < 2 ^ 31 := by
  have h := hash1_lt T mrs hT p
  exact ⟨Nat.testBit_lt_two_pow h, h⟩

theorem claim_C7_witness :
    Nat.testBit (hash1 tokA 2 1) 31 = false ∧ hash1 tokA 2 1 < 2 ^ 31 :=
  claim_C7 tokA 2 1 (fun _ => by norm_num [tokA])

/-- C8.  `init_hash_table` computes exactly `N_SAMPLES = 24` sample
offsets by the straight-line formula with integer division, and every
offset lies inside the window `[0, Min_Run_Size)`. -/
theorem claim_C8 (mrs n : Nat) (hm : 1 ≤ mrs) (hn : n < 24) :
    nSamples = 24 ∧ (samplePosList mrs).length = 24 ∧
    samplePos mrs n = (2 * n * (mrs - 1) + 23) / 46 ∧
    samplePos mrs n < mrs := by
  refine ⟨rfl, by simp [samplePosList, nSamples], rfl, ?_⟩
  exact samplePos_lt mrs n hm (by rw [nSamples]; exact hn)

theorem claim_C8_witness :
    nSamples = 24 ∧ (samplePosList 3).length = 24 ∧
    samplePos 3 5 = (2 * 5 * (3 - 1) + 23) / 46 ∧
    samplePos 3 5 < 3 :=
  claim_C8 3 5 (by decide) (by decide)

/-- C9.  Every position that carries a nonzero forward reference, and
every position a nonzero forward reference points to, is a position at
which `May_Be_Start_Of_Run` holds and whose window fits inside its own
text: chains never involve skipped tokens and never cross into a text's
tail. -/
theorem claim_C9 (T : Nat → Nat) (mayStart : Nat → Bool) (mrs M : Nat)
    (texts : List (Nat × Nat)) (N : Nat) (hWF : WFtexts mrs texts N) (p : Nat)
    (hnz : forwardRef T mayStart mrs M texts N p ≠ 0) :
    eligible T mayStart mrs texts p ∧
      eligible T mayStart mrs texts (forwardRef T mayStart mrs M texts N p) := by
  have hpE : p ∈ eligList T mayStart mrs texts := by
    by_contra hE
    exact hnz ((forwardRef_spec T mayStart mrs M texts N hWF p).1 hE)
  rcases (forwardRef_spec T mayStart mrs M texts N hWF p).2 hpE with
    ⟨hz, _⟩ | ⟨hmem, _, _, _, _⟩
  · exact absurd hz hnz
  · exact ⟨(mem_eligList_eligible T mayStart mrs texts p hWF.2.2).mp hpE,
      (mem_eligList_eligible T mayStart mrs texts _ hWF.2.2).mp hmem⟩

set_option maxRecDepth 1000000 in
theorem claim_C9_witness :
    eligible tokA msA 2 textsA 1 ∧
      eligible tokA msA 2 textsA (forwardRef tokA msA 2 14051 textsA 5 1) :=
  claim_C9 tokA msA 2 14051 textsA 5 (by decide) 1 (by decide)

/-- C10.  `Forward_Reference(i)` is fatal both for `i = 0` (the sentinel
index can never be queried) and for `i ≥ N`; for `1 ≤ i < N` it returns
the array entry without failing. -/
theorem claim_C10 (T : Nat → Nat) (mayStart : Nat → Bool) (mrs M : Nat)
    (texts : List (Nat × Nat)) (N : Nat) (i : Nat) :
    ((i = 0 ∨ N ≤ i) → Forward_Reference T mayStart mrs M texts N i =
      Except.error "internal error, bad forward reference") ∧
    (1 ≤ i → i < N → Forward_Reference T mayStart mrs M texts N i =
      Except.ok (forwardRef T mayStart mrs M texts N i)) := by
  constructor
  · intro h
    rw [Forward_Reference, if_pos h]
  · intro h1 h2
    rw [Forward_Reference, if_neg (by omega)]

theorem claim_C10_witness :
    Forward_Reference tokA msA 2 14051 textsA 5 0 =
      Except.error "internal error, bad forward reference" ∧
    Forward_Reference tokA msA 2 14051 textsA 5 7 =
      Except.error "internal error, bad forward reference" ∧
    Forward_Reference tokA msA 2 14051 textsA 5 2 =
      Except.ok (forwardRef tokA msA 2 14051 textsA 5 2) :=
  ⟨(claim_C10 tokA msA 2 14051 textsA 5 0).1 (Or.inl rfl),
    (claim_C10 tokA msA 2 14051 textsA 5 7).1 (Or.inr (by omega)),
    (claim_C10 tokA msA 2 14051 textsA 5 2).2 (by omega) (by omega)⟩

end Sim
